import Mathlib

/-!
Verification of the molecule-construction core of the fegrow repository
(scaffold/fragment combination and attachment-point resolution).

The repository ships only the tests and a tutorial for this core under its
source tree; the build/merge implementation itself is absent.  Every
definition below is therefore modelled from the specification of the core
(data model, Attachment Resolver, Component Selector, Graph Merger,
Combinatorial Expander) and checked against the behaviour the tests pin
down.

A molecule is an undirected labelled graph: an atom arena indexed by
position, and a bond list holding (endpoint, endpoint, order) triples.
Wildcard ("dummy") attachment atoms carry atomic number 0 and a numeric
label (1 = attaches to the scaffold, 2 = stays open on a linker).
-/

/-- Modelled from the spec: an atom of the molecular graph, carrying its
element (atomic number) and, for wildcard/dummy atoms (atomic number 0),
the numeric attachment label (1 or 2); real atoms carry label 0. -/
structure Atom where
  atomicNum : Nat
  label : Nat
deriving DecidableEq

/-- Modelled from the spec: an undirected bond between the atoms at
indices `a` and `b`, with integer bond order. -/
structure Bond where
  a : Nat
  b : Nat
  order : Nat
deriving DecidableEq

/-- Modelled from the spec: a molecule as an explicit atom-index arena
plus a bond list. -/
structure Molecule where
  atoms : List Atom
  bonds : List Bond
deriving DecidableEq

def Molecule.empty : Molecule := ⟨[], []⟩

/-- The atom stored at index `j` (an arbitrary plain hydrogen when the
index is out of range). -/
def Molecule.atomAt (m : Molecule) (j : Nat) : Atom := m.atoms.getD j ⟨1, 0⟩

/-- A wildcard/dummy attachment atom is marked by atomic number 0. -/
def isDummy (a : Atom) : Bool := a.atomicNum == 0

/-- All bonds of `m` incident to atom index `i`. -/
def incidentBonds (m : Molecule) (i : Nat) : List Bond :=
  m.bonds.filter (fun b => b.a == i || b.b == i)

/-- The endpoint of bond `b` other than `i` (given that `b` touches `i`). -/
def otherEnd (b : Bond) (i : Nat) : Nat := if b.a == i then b.b else b.a

/-- The bonded neighbours of atom `i`, in bond-list order. -/
def neighbors (m : Molecule) (i : Nat) : List Nat :=
  (incidentBonds m i).map (fun b => otherEnd b i)

/-- Whether some bond of `m` joins `u` and `v`. -/
def adjacentB (m : Molecule) (u v : Nat) : Bool :=
  m.bonds.any (fun b => (b.a == u && b.b == v) || (b.a == v && b.b == u))

/-- One expansion step of a reachable set: all in-range atoms other than
`removed` that are in `s` or bonded to a member of `s`. -/
def growStep (m : Molecule) (removed : Nat) (s : List Nat) : List Nat :=
  (List.range m.atoms.length).filter
    (fun v => !(v == removed) && (s.contains v || s.any (fun u => adjacentB m u v)))

/-- Fuelled closure of `growStep`. -/
def reachN (m : Molecule) (removed : Nat) : Nat → List Nat → List Nat
  | 0, s => s
  | k + 1, s => reachN m removed k (growStep m removed s)

/-- Modelled from the spec: the connected component of `seed` in the graph
of `m` with atom `removed` (and its bonds) deleted, as a sorted index
list. -/
def componentOf (m : Molecule) (removed : Nat) (seed : Nat) : List Nat :=
  reachN m removed m.atoms.length [seed]

/-- Modelled from the spec (Attachment Resolver, disconnection test): the
connected components of `m` after conceptually removing atom `removed`,
listed by lowest contained seed index. -/
def components (m : Molecule) (removed : Nat) : List (List Nat) :=
  (List.range m.atoms.length).foldl
    (fun acc j =>
      if j == removed || acc.any (fun c => c.contains j) then acc
      else acc ++ [componentOf m removed j])
    []

/-- The minimum atom index of a component (0 for an empty list). -/
def minIdx : List Nat → Nat
  | [] => 0
  | x :: xs => xs.foldl Nat.min x

/-- Modelled from the spec (Component Selector, default policy): keep the
candidate with the greater atom count, ties broken by lowest minimum atom
index. -/
def preferred (best c : List Nat) : List Nat :=
  if best.length < c.length ∨ (c.length = best.length ∧ minIdx c < minIdx best) then c
  else best

/-- Default selection over a component list: fold `preferred` over it. -/
def pickDefault : List (List Nat) → Option (List Nat)
  | [] => none
  | c :: cs => some (cs.foldl preferred c)

/-- Modelled from the spec: the error kinds raised by the core
(`InvalidIndexError`, `UnsupportedAttachmentError`,
`AmbiguousSelectionError`, `ValenceError`). -/
inductive BuildError where
  | invalidIndex
  | unsupportedAttachment
  | ambiguousSelection
  | valence
deriving DecidableEq

/-- Modelled from the spec (Component Selector): with a keep index, the
component containing it (else `AmbiguousSelectionError`); with none, the
largest component with the lowest-minimum-index tie break. -/
def selectComponent (cs : List (List Nat)) (keep : Option Nat) :
    Except BuildError (List Nat) :=
  match keep with
  | some k =>
    match cs.find? (fun c => c.contains k) with
    | some c => .ok c
    | none => .error .ambiguousSelection
  | none =>
    match pickDefault cs with
    | some c => .ok c
    | none => .error .ambiguousSelection

/-- A resolved scaffold: the kept component's atom indices and the anchor
atom (the kept neighbour of the removed attachment atom) that will carry
the new fragment. -/
structure Resolved where
  kept : List Nat
  anchor : Nat
deriving DecidableEq

/-- Modelled from the spec (Attachment Resolver): check the target index
exists (`InvalidIndexError` otherwise), refuse attachment atoms held by a
bond of order above one (`UnsupportedAttachmentError`), compute the
components left by the removal, delegate the choice to the Component
Selector, and recompute the anchor inside the kept component
(`InvalidIndexError` when every neighbour of the target was discarded). -/
def resolve (m : Molecule) (target : Nat) (keep : Option Nat) :
    Except BuildError Resolved :=
  if target < m.atoms.length then
    if m.bonds.any (fun b => (b.a == target || b.b == target) && decide (1 < b.order)) then
      .error .unsupportedAttachment
    else
      match selectComponent (components m target) keep with
      | .error e => .error e
      | .ok kept =>
        match (neighbors m target).filter (fun a => kept.contains a) with
        | [] => .error .invalidIndex
        | a :: _ => .ok ⟨kept, a⟩
  else .error .invalidIndex

/-- Modelled from the spec (Graph Merger step 2): the fragment wildcard to
consume — the label-1 dummy if present, else the sole dummy of an
R-group. -/
def findWildcard (f : Molecule) : Option Nat :=
  match f.atoms.findIdx? (fun a => isDummy a && a.label == 1) with
  | some w => some w
  | none => f.atoms.findIdx? isDummy

/-- New index of old scaffold index `j` once only the atoms of `kept`
remain, in order: the number of kept indices below `j`. -/
def newIndex (kept : List Nat) (j : Nat) : Nat :=
  (kept.filter (fun x => decide (x < j))).length

/-- New index of old fragment index `j` once the wildcard `w` is removed. -/
def fragIndex (w j : Nat) : Nat := if j < w then j else j - 1

/-- Modelled from the spec (Graph Merger steps 1–5): the merged molecule —
kept scaffold atoms, then the fragment atoms minus its consumed wildcard
`w`; scaffold bonds inside the kept component and fragment bonds away
from `w`, both renumbered, plus the new anchor-to-fragment bond carrying
the order of the removed fragment-side bond `wb`. -/
def mergedMol (m : Molecule) (kept : List Nat) (anchor : Nat) (f : Molecule)
    (w : Nat) (wb : Bond) : Molecule :=
  ⟨(kept.map (fun j => m.atoms.getD j ⟨1, 0⟩)) ++ f.atoms.eraseIdx w,
   ((m.bonds.filter (fun b => kept.contains b.a && kept.contains b.b)).map
      (fun b => ⟨newIndex kept b.a, newIndex kept b.b, b.order⟩)) ++
   ((f.bonds.filter (fun b => !(b.a == w) && !(b.b == w))).map
      (fun b => ⟨kept.length + fragIndex w b.a, kept.length + fragIndex w b.b, b.order⟩)) ++
   [⟨newIndex kept anchor, kept.length + fragIndex w (otherEnd wb w), wb.order⟩]⟩

/-- Standard valence table used by the merge-time valence check. -/
def stdValence (z : Nat) : Nat :=
  if z == 1 then 1 else if z == 6 then 4 else if z == 7 then 3
  else if z == 8 then 2 else if z == 9 then 1 else if z == 16 then 6
  else if z == 17 then 1 else 8

/-- Total bond order carried by atom `k` of `m`. -/
def valenceAt (m : Molecule) (k : Nat) : Nat :=
  ((incidentBonds m k).map Bond.order).sum

/-- Modelled from the spec (Graph Merger): consume the fragment wildcard
(its unique incident bond supplies the new bond's order), splice the
graphs, and fail with `ValenceError` when the anchor would exceed the
standard valence of its element. -/
def mergeFragment (m : Molecule) (kept : List Nat) (anchor : Nat) (f : Molecule) :
    Except BuildError Molecule :=
  match findWildcard f with
  | none => .error .unsupportedAttachment
  | some w =>
    match incidentBonds f w with
    | [wb] =>
      if valenceAt (mergedMol m kept anchor f w wb) (newIndex kept anchor) ≤
          stdValence (m.atomAt anchor).atomicNum
      then .ok (mergedMol m kept anchor f w wb)
      else .error .valence
    | _ => .error .unsupportedAttachment

/-- The first dummy atom of a molecule, if any. -/
def findDummy (m : Molecule) : Option Nat := m.atoms.findIdx? isDummy

/-- Modelled from the spec: one complete merge — determine the target
(the supplied attachment index, or the molecule's existing wildcard atom
when none is supplied), resolve it, and merge the fragment. -/
def buildOne (m f : Molecule) (attachment keep : Option Nat) :
    Except BuildError Molecule :=
  match attachment with
  | some t =>
    match resolve m t keep with
    | .error e => .error e
    | .ok r => mergeFragment m r.kept r.anchor f
  | none =>
    match findDummy m with
    | none => .error .invalidIndex
    | some d =>
      match resolve m d keep with
      | .error e => .error e
      | .ok r => mergeFragment m r.kept r.anchor f

/-- Effectful map over `Except`: the whole list or the first error. -/
def mapE (g : α → Except BuildError β) : List α → Except BuildError (List β)
  | [] => .ok []
  | x :: xs =>
    match g x with
    | .error e => .error e
    | .ok y =>
      match mapE g xs with
      | .error e => .error e
      | .ok ys => .ok (y :: ys)

/-- Modelled from the spec (Combinatorial Expander): with no linkers, one
Built Molecule per R-group in order; with linkers, the outer loop runs
over linkers and the inner loop over R-groups, each output being the
two-step merge scaffold+linker then result+R-group at the linker's open
wildcard.  Any failing combination aborts the whole batch. -/
def build_molecules (scaffold : Molecule) (rgroups linkers : List Molecule)
    (attachment keep : Option Nat) : Except BuildError (List Molecule) :=
  match linkers with
  | [] => mapE (fun g => buildOne scaffold g attachment keep) rgroups
  | _ :: _ =>
    match mapE (fun l =>
        match buildOne scaffold l attachment keep with
        | .error e => .error e
        | .ok t => mapE (fun g => buildOne t g none none) rgroups) linkers with
    | .error e => .error e
    | .ok rows => .ok rows.flatten

/-- The single-atom null fragment of the round-trip property: a label-1
wildcard bonded to one hydrogen. -/
def nullFragment : Molecule := ⟨[⟨0, 1⟩, ⟨1, 0⟩], [⟨0, 1, 1⟩]⟩

/-- `m` has a bond of order `o` between `u` and `v` (either orientation). -/
def hasBondP (m : Molecule) (u v o : Nat) : Prop :=
  ∃ b ∈ m.bonds, ((b.a = u ∧ b.b = v) ∨ (b.a = v ∧ b.b = u)) ∧ b.order = o

/-- `σ` is a graph isomorphism from `a` onto `b`: an index bijection
preserving atoms and bonds. -/
def isIso (σ : Nat → Nat) (a b : Molecule) : Prop :=
  a.atoms.length = b.atoms.length ∧
  (∀ k, k < a.atoms.length → σ k < b.atoms.length) ∧
  (∀ k₁ k₂, k₁ < a.atoms.length → k₂ < a.atoms.length → σ k₁ = σ k₂ → k₁ = k₂) ∧
  (∀ k, k < a.atoms.length → a.atomAt k = b.atomAt (σ k)) ∧
  (∀ u v o, u < a.atoms.length → v < a.atoms.length →
    (hasBondP a u v o ↔ hasBondP b (σ u) (σ v) o))

/-- Two molecules are equal as labelled graphs when some index bijection
identifies them. -/
def Molecule.iso (a b : Molecule) : Prop := ∃ σ, isIso σ a b

deriving instance DecidableEq for Except

/-! ### Selection-order lemmas -/

/-- `c` is at least as good a kept-component candidate as `x`: strictly
more atoms, or the same atom count and a minimum index at most as low. -/
def dominatesComp (c x : List Nat) : Prop :=
  x.length < c.length ∨ (x.length = c.length ∧ minIdx c ≤ minIdx x)

theorem dominatesComp_refl (c : List Nat) : dominatesComp c c :=
  Or.inr ⟨rfl, Nat.le_refl _⟩

theorem dominatesComp_trans {x y z : List Nat}
    (h₁ : dominatesComp x y) (h₂ : dominatesComp y z) : dominatesComp x z := by
  unfold dominatesComp at h₁ h₂ ⊢
  omega

theorem preferred_eq_or (b c : List Nat) : preferred b c = b ∨ preferred b c = c := by
  unfold preferred; split
  · exact Or.inr rfl
  · exact Or.inl rfl

theorem preferred_dominates_left (b c : List Nat) : dominatesComp (preferred b c) b := by
  unfold preferred
  split
  · rename_i h
    unfold dominatesComp
    omega
  · exact dominatesComp_refl b

theorem preferred_dominates_right (b c : List Nat) : dominatesComp (preferred b c) c := by
  unfold preferred
  split
  · exact dominatesComp_refl c
  · rename_i h
    unfold dominatesComp
    omega

theorem foldl_preferred_mem :
    ∀ (cs : List (List Nat)) (b : List Nat),
      cs.foldl preferred b = b ∨ cs.foldl preferred b ∈ cs := by
  intro cs
  induction cs with
  | nil => intro b; exact Or.inl rfl
  | cons c cs ih =>
    intro b
    rw [List.foldl_cons]
    rcases ih (preferred b c) with h | h
    · rcases preferred_eq_or b c with hp | hp
      · exact Or.inl (h.trans hp)
      · exact Or.inr (by rw [h, hp]; exact List.mem_cons_self _ _)
    · exact Or.inr (List.mem_cons_of_mem _ h)

theorem foldl_preferred_dominates :
    ∀ (cs : List (List Nat)) (b : List Nat),
      dominatesComp (cs.foldl preferred b) b ∧
      ∀ x ∈ cs, dominatesComp (cs.foldl preferred b) x := by
  intro cs
  induction cs with
  | nil => intro b; exact ⟨dominatesComp_refl b, by intro x hx; cases hx⟩
  | cons c cs ih =>
    intro b
    rw [List.foldl_cons]
    obtain ⟨hb, hall⟩ := ih (preferred b c)
    refine ⟨dominatesComp_trans hb (preferred_dominates_left b c), ?_⟩
    intro x hx
    rcases List.mem_cons.mp hx with rfl | hx
    · exact dominatesComp_trans hb (preferred_dominates_right b x)
    · exact hall x hx

theorem pickDefault_ok {cs : List (List Nat)} {r : List Nat}
    (h : pickDefault cs = some r) : r ∈ cs ∧ ∀ x ∈ cs, dominatesComp r x := by
  cases cs with
  | nil => cases h
  | cons c cs =>
    have hr : cs.foldl preferred c = r := by
      have := h; unfold pickDefault at this; exact Option.some.inj this
    subst hr
    constructor
    · rcases foldl_preferred_mem cs c with h' | h'
      · rw [h']; exact List.mem_cons_self _ _
      · exact List.mem_cons_of_mem _ h'
    · intro x hx
      obtain ⟨hb, hall⟩ := foldl_preferred_dominates cs c
      rcases List.mem_cons.mp hx with rfl | hx
      · exact hb
      · exact hall x hx

theorem selectComponent_ok_mem {cs : List (List Nat)} {keep : Option Nat} {c : List Nat}
    (h : selectComponent cs keep = .ok c) : c ∈ cs := by
  cases keep with
  | none =>
    simp only [selectComponent] at h
    cases hp : pickDefault cs with
    | none => rw [hp] at h; cases h
    | some r => rw [hp] at h; cases h; exact (pickDefault_ok hp).1
  | some k =>
    simp only [selectComponent] at h
    cases hf : cs.find? (fun c => c.contains k) with
    | none => rw [hf] at h; cases h
    | some r => rw [hf] at h; cases h; exact List.mem_of_find?_eq_some hf

theorem selectComponent_some_ok_keep {cs : List (List Nat)} {k : Nat} {c : List Nat}
    (h : selectComponent cs (some k) = .ok c) : k ∈ c := by
  simp only [selectComponent] at h
  cases hf : cs.find? (fun c => c.contains k) with
  | none => rw [hf] at h; cases h
  | some r =>
    rw [hf] at h; cases h
    have := List.find?_some hf
    simpa [List.contains, List.elem_iff] using this

theorem selectComponent_none_dominates {cs : List (List Nat)} {c : List Nat}
    (h : selectComponent cs none = .ok c) : ∀ x ∈ cs, dominatesComp c x := by
  simp only [selectComponent] at h
  cases hp : pickDefault cs with
  | none => rw [hp] at h; cases h
  | some r => rw [hp] at h; cases h; exact (pickDefault_ok hp).2

theorem selectComponent_some_not_found {cs : List (List Nat)} {k : Nat}
    (h : ∀ c ∈ cs, k ∉ c) : selectComponent cs (some k) = .error .ambiguousSelection := by
  simp only [selectComponent]
  have hn : cs.find? (fun c => c.contains k) = none := by
    rw [List.find?_eq_none]
    intro c hc
    simpa [List.contains, List.elem_iff] using h c hc
  rw [hn]

/-! ### Inversion lemmas for the resolver and merger -/

theorem resolve_ok_inv {m : Molecule} {t : Nat} {keep : Option Nat} {r : Resolved}
    (h : resolve m t keep = .ok r) :
    t < m.atoms.length ∧
    m.bonds.any (fun b => (b.a == t || b.b == t) && decide (1 < b.order)) = false ∧
    selectComponent (components m t) keep = .ok r.kept ∧
    r.anchor ∈ r.kept ∧ r.anchor ∈ neighbors m t := by
  unfold resolve at h
  split at h
  · rename_i ht
    split at h
    · cases h
    · rename_i hbad
      refine ⟨ht, by simpa using hbad, ?_⟩
      split at h
      · cases h
      · rename_i kept hsel
        split at h
        · cases h
        · rename_i a rest hfil
          cases h
          have ha : a ∈ (neighbors m t).filter (fun x => kept.contains x) := by
            rw [hfil]; exact List.mem_cons_self _ _
          have hm := List.mem_filter.mp ha
          refine ⟨hsel, ?_, hm.1⟩
          simpa [List.contains, List.elem_iff] using hm.2
  · cases h

theorem mergeFragment_ok_inv {m : Molecule} {kept : List Nat} {anchor : Nat}
    {f : Molecule} {res : Molecule}
    (h : mergeFragment m kept anchor f = .ok res) :
    ∃ w wb, findWildcard f = some w ∧ incidentBonds f w = [wb] ∧
      valenceAt (mergedMol m kept anchor f w wb) (newIndex kept anchor) ≤
        stdValence (m.atomAt anchor).atomicNum ∧
      res = mergedMol m kept anchor f w wb := by
  unfold mergeFragment at h
  split at h
  · cases h
  · rename_i w hw
    split at h
    · rename_i wb hib
      split at h
      · rename_i hval
        cases h
        exact ⟨w, wb, hw, hib, hval, rfl⟩
      · cases h
    · cases h

theorem buildOne_some_ok_inv {m f : Molecule} {t : Nat} {keep : Option Nat} {res : Molecule}
    (h : buildOne m f (some t) keep = .ok res) :
    ∃ r, resolve m t keep = .ok r ∧ mergeFragment m r.kept r.anchor f = .ok res := by
  simp only [buildOne] at h
  split at h
  · cases h
  · rename_i r hr
    exact ⟨r, hr, h⟩

/-! ### `mapE` and `flatten` lemmas -/

theorem mapE_ok_length {g : α → Except BuildError β} :
    ∀ {l : List α} {bs : List β}, mapE g l = .ok bs → bs.length = l.length := by
  intro l
  induction l with
  | nil => intro bs h; cases h; rfl
  | cons x xs ih =>
    intro bs h
    unfold mapE at h
    cases hx : g x with
    | error e => rw [hx] at h; cases h
    | ok y =>
      rw [hx] at h
      cases hxs : mapE g xs with
      | error e => rw [hxs] at h; cases h
      | ok ys =>
        rw [hxs] at h; cases h
        simp [ih hxs]

theorem mapE_ok_getD {g : α → Except BuildError β} (dα : α) (dβ : β) :
    ∀ {l : List α} {bs : List β}, mapE g l = .ok bs →
      ∀ j, j < l.length → g (l.getD j dα) = .ok (bs.getD j dβ) := by
  intro l
  induction l with
  | nil => intro bs h j hj; cases hj
  | cons x xs ih =>
    intro bs h j hj
    unfold mapE at h
    cases hx : g x with
    | error e => rw [hx] at h; cases h
    | ok y =>
      rw [hx] at h
      cases hxs : mapE g xs with
      | error e => rw [hxs] at h; cases h
      | ok ys =>
        rw [hxs] at h; cases h
        cases j with
        | zero => simpa using hx
        | succ j =>
          simp only [List.getD_cons_succ]
          exact ih hxs j (Nat.lt_of_succ_lt_succ hj)

theorem flatten_length_const {rows : List (List α)} {N : Nat}
    (h : ∀ r ∈ rows, r.length = N) : rows.flatten.length = rows.length * N := by
  induction rows with
  | nil => simp
  | cons r rows ih =>
    simp only [List.flatten_cons, List.length_append, List.length_cons]
    rw [h r (List.mem_cons_self _ _), ih (fun x hx => h x (List.mem_cons_of_mem _ hx)),
      Nat.succ_mul, Nat.add_comm]

theorem flatten_getD_const {rows : List (List α)} {N : Nat} (d : α)
    (h : ∀ r ∈ rows, r.length = N) :
    ∀ i j, i < rows.length → j < N →
      rows.flatten.getD (i * N + j) d = (rows.getD i []).getD j d := by
  induction rows with
  | nil => intro i j hi _; cases hi
  | cons r rows ih =>
    intro i j hi hj
    cases i with
    | zero =>
      simp only [List.flatten_cons, List.getD_cons_zero, Nat.zero_mul, Nat.zero_add]
      exact List.getD_append _ _ _ _ (by rw [h r (List.mem_cons_self _ _)]; exact hj)
    | succ i =>
      simp only [List.flatten_cons, List.getD_cons_succ]
      have hr : r.length = N := h r (List.mem_cons_self _ _)
      have harith : (i + 1) * N + j = r.length + (i * N + j) := by
        rw [hr, Nat.succ_mul]; omega
      rw [harith, List.getD_append_right _ _ _ _ (Nat.le_add_right _ _), Nat.add_sub_cancel_left]
      exact ih (fun x hx => h x (List.mem_cons_of_mem _ hx)) i j
        (Nat.lt_of_succ_lt_succ hi) hj

theorem mapE_congr {g₁ g₂ : α → Except BuildError β} :
    ∀ {l : List α}, (∀ x ∈ l, g₁ x = g₂ x) → mapE g₁ l = mapE g₂ l := by
  intro l
  induction l with
  | nil => intro _; rfl
  | cons x xs ih =>
    intro h
    unfold mapE
    rw [h x (List.mem_cons_self _ _), ih (fun y hy => h y (List.mem_cons_of_mem _ hy))]

theorem dominatesComp_length_le {c x : List Nat} (h : dominatesComp c x) :
    x.length ≤ c.length := by
  unfold dominatesComp at h; omega

theorem findWildcard_lt {f : Molecule} {w : Nat} (h : findWildcard f = some w) :
    w < f.atoms.length := by
  unfold findWildcard at h
  cases h1 : f.atoms.findIdx? (fun a => isDummy a && a.label == 1) with
  | some w1 =>
    rw [h1] at h; cases h
    exact (List.findIdx?_eq_some_iff_findIdx_eq.mp h1).1
  | none =>
    rw [h1] at h
    exact (List.findIdx?_eq_some_iff_findIdx_eq.mp h).1

/-! ### Inversion of the Combinatorial Expander -/

theorem rowFn_ok_inv {s l : Molecule} {rs : List Molecule} {a k : Option Nat}
    {row : List Molecule}
    (h : (match buildOne s l a k with
          | .error e => (.error e : Except BuildError (List Molecule))
          | .ok t => mapE (fun g => buildOne t g none none) rs) = .ok row) :
    ∃ t, buildOne s l a k = .ok t ∧
      mapE (fun g => buildOne t g none none) rs = .ok row := by
  split at h
  · cases h
  · rename_i t ht
    exact ⟨t, ht, h⟩

theorem build_cons_ok_inv {s l0 : Molecule} {rs ls : List Molecule} {a k : Option Nat}
    {bs : List Molecule}
    (h : build_molecules s rs (l0 :: ls) a k = .ok bs) :
    ∃ rows, mapE (fun l =>
        match buildOne s l a k with
        | .error e => (.error e : Except BuildError (List Molecule))
        | .ok t => mapE (fun g => buildOne t g none none) rs) (l0 :: ls) = .ok rows ∧
      bs = rows.flatten := by
  simp only [build_molecules] at h
  split at h
  · cases h
  · rename_i rows hrows
    cases h
    exact ⟨rows, hrows, rfl⟩

/-! ### Concrete molecules used by the witnesses -/

/-- A hydrogen molecule H–H. -/
def molHH : Molecule := ⟨[⟨1, 0⟩, ⟨1, 0⟩], [⟨0, 1, 1⟩]⟩

/-- A one-carbon linker fragment: label-1 wildcard, carbon, label-2
wildcard. -/
def linkerC : Molecule := ⟨[⟨0, 1⟩, ⟨6, 0⟩, ⟨0, 2⟩], [⟨0, 1, 1⟩, ⟨1, 2, 1⟩]⟩

/-- H–O–H with the dividing oxygen in the middle. -/
def molHOH : Molecule := ⟨[⟨1, 0⟩, ⟨8, 0⟩, ⟨1, 0⟩], [⟨0, 1, 1⟩, ⟨1, 2, 1⟩]⟩

/-- Water with the oxygen first and a replaceable trailing hydrogen. -/
def molWater : Molecule := ⟨[⟨8, 0⟩, ⟨1, 0⟩, ⟨1, 0⟩], [⟨0, 1, 1⟩, ⟨0, 2, 1⟩]⟩

/-- A carbon carrying an open label-2 wildcard. -/
def molCStar : Molecule := ⟨[⟨6, 0⟩, ⟨0, 2⟩], [⟨0, 1, 1⟩]⟩

/-- A fragment whose wildcard bond has order 2: merging it onto a
hydrogen anchor exceeds the anchor's valence. -/
def rgBad : Molecule := ⟨[⟨0, 1⟩, ⟨8, 0⟩], [⟨0, 1, 2⟩]⟩

/-- The Built Molecule of the two-stage witness run (H–CH₂-like chain). -/
def c2res : Molecule := ⟨[⟨1, 0⟩, ⟨6, 0⟩, ⟨1, 0⟩], [⟨0, 1, 1⟩, ⟨1, 2, 1⟩]⟩

/-- Structure of a successful expander run: the output count, and the
(two-stage) merge that produced each entry. -/
theorem build_ok_master {s : Molecule} {rs ls : List Molecule} {a k : Option Nat}
    {bs : List Molecule} (h : build_molecules s rs ls a k = .ok bs) :
    bs.length = (if ls.isEmpty then rs.length else ls.length * rs.length) ∧
    (ls = [] → ∀ j, j < rs.length →
      buildOne s (rs.getD j Molecule.empty) a k = .ok (bs.getD j Molecule.empty)) ∧
    (∀ i, i < ls.length → ∃ t, buildOne s (ls.getD i Molecule.empty) a k = .ok t ∧
      ∀ j, j < rs.length →
        buildOne t (rs.getD j Molecule.empty) none none =
          .ok (bs.getD (i * rs.length + j) Molecule.empty)) := by
  cases ls with
  | nil =>
    have hmap : mapE (fun g => buildOne s g a k) rs = .ok bs := h
    refine ⟨by simpa using mapE_ok_length hmap, ?_, ?_⟩
    · intro _ j hj
      exact mapE_ok_getD Molecule.empty Molecule.empty hmap j hj
    · intro i hi; cases hi
  | cons l0 ls =>
    obtain ⟨rows, hrows, rfl⟩ := build_cons_ok_inv h
    have hrowslen := mapE_ok_length hrows
    have hrowlen : ∀ r ∈ rows, r.length = rs.length := by
      intro r hr
      obtain ⟨i, hi, hget⟩ := List.mem_iff_getElem.mp hr
      have hG := mapE_ok_getD Molecule.empty ([] : List Molecule) hrows i (by omega)
      obtain ⟨t, _, hinner⟩ := rowFn_ok_inv hG
      have hlen := mapE_ok_length hinner
      rwa [List.getD_eq_getElem _ _ (by omega), hget] at hlen
    refine ⟨?_, ?_, ?_⟩
    · rw [flatten_length_const hrowlen, hrowslen]
      simp
    · intro habs; cases habs
    · intro i hi
      have hG := mapE_ok_getD Molecule.empty ([] : List Molecule) hrows i hi
      obtain ⟨t, ht, hinner⟩ := rowFn_ok_inv hG
      refine ⟨t, ht, ?_⟩
      intro j hj
      have hentry := mapE_ok_getD Molecule.empty Molecule.empty hinner j hj
      rw [flatten_getD_const Molecule.empty hrowlen i j (by omega) hj]
      exact hentry

/-! ### Claim theorems: expander counts, failure atomicity, selection -/

/-- C2: a successful run of build_molecules on N R-groups and M linkers
returns exactly M*N Built Molecules (exactly N when no linkers are
supplied), and the entry at position i*N+j is the result of the two
sequential merges scaffold+linker i, then that result+R-group j at the
linker's open wildcard. -/
theorem c2_combinatorial_expansion {s : Molecule} {rs ls : List Molecule}
    {a k : Option Nat} {bs : List Molecule}
    (h : build_molecules s rs ls a k = .ok bs) :
    bs.length = (if ls.isEmpty then rs.length else ls.length * rs.length) ∧
    ∀ i j, i < ls.length → j < rs.length →
      ∃ t, buildOne s (ls.getD i Molecule.empty) a k = .ok t ∧
        buildOne t (rs.getD j Molecule.empty) none none =
          .ok (bs.getD (i * rs.length + j) Molecule.empty) := by
  obtain ⟨hlen, -, hcombo⟩ := build_ok_master h
  refine ⟨hlen, ?_⟩
  intro i j hi hj
  obtain ⟨t, ht, hall⟩ := hcombo i hi
  exact ⟨t, ht, hall j hj⟩

theorem c2_combinatorial_expansion_witness :
    build_molecules molHH [nullFragment] [linkerC] (some 1) none = .ok [c2res] ∧
    ([c2res].length = (if ([linkerC] : List Molecule).isEmpty then
        ([nullFragment] : List Molecule).length
      else ([linkerC] : List Molecule).length * ([nullFragment] : List Molecule).length) ∧
     ∀ i j, i < ([linkerC] : List Molecule).length →
        j < ([nullFragment] : List Molecule).length →
       ∃ t, buildOne molHH ([linkerC].getD i Molecule.empty) (some 1) none = .ok t ∧
         buildOne t ([nullFragment].getD j Molecule.empty) none none =
           .ok ([c2res].getD (i * ([nullFragment] : List Molecule).length + j)
             Molecule.empty)) :=
  ⟨by decide, c2_combinatorial_expansion (by decide)⟩

/-- C8: one failing combination aborts the whole batch — whether the
failure happens on an R-group merge of an R-group-only batch, on a
linker merge, or on the R-group stage of a (linker, R-group) pair, a
run containing it never returns a Built Molecule Collection. -/
theorem c8_batch_aborts (s : Molecule) (rs ls : List Molecule) (a k : Option Nat) :
    (∀ j e, j < rs.length → ls = [] →
      buildOne s (rs.getD j Molecule.empty) a k = .error e →
      ∀ bs, build_molecules s rs ls a k ≠ .ok bs) ∧
    (∀ i e, i < ls.length →
      buildOne s (ls.getD i Molecule.empty) a k = .error e →
      ∀ bs, build_molecules s rs ls a k ≠ .ok bs) ∧
    (∀ i j t e, i < ls.length → j < rs.length →
      buildOne s (ls.getD i Molecule.empty) a k = .ok t →
      buildOne t (rs.getD j Molecule.empty) none none = .error e →
      ∀ bs, build_molecules s rs ls a k ≠ .ok bs) := by
  refine ⟨?_, ?_, ?_⟩
  · intro j e hj hls herr bs hok
    obtain ⟨-, hnil, -⟩ := build_ok_master hok
    have hcontra := hnil hls j hj
    rw [herr] at hcontra
    cases hcontra
  · intro i e hi herr bs hok
    obtain ⟨-, -, hcombo⟩ := build_ok_master hok
    obtain ⟨t, ht, -⟩ := hcombo i hi
    rw [herr] at ht
    cases ht
  · intro i j t e hi hj hok1 herr bs hok
    obtain ⟨-, -, hcombo⟩ := build_ok_master hok
    obtain ⟨t2, ht2, hall⟩ := hcombo i hi
    rw [hok1] at ht2
    cases ht2
    have h2 := hall j hj
    rw [herr] at h2
    cases h2

theorem c8_batch_aborts_witness :
    buildOne molHH rgBad (some 1) none = .error .valence ∧
    build_molecules molHH [rgBad] [] (some 1) none ≠ .ok [] :=
  ⟨by decide,
   (c8_batch_aborts molHH [rgBad] [] (some 1) none).1 0 .valence (by decide) rfl
     (by decide) []⟩

/-- C10: when the scaffold already carries a dummy wildcard atom (index
d), omitting the attachment index makes build_molecules behave exactly
as if that wildcard's index had been supplied as the attachment. -/
theorem c10_wildcard_attachment {m : Molecule} {rs : List Molecule}
    {keep : Option Nat} {d : Nat} (hd : findDummy m = some d) :
    build_molecules m rs [] none keep = build_molecules m rs [] (some d) keep := by
  have hone : ∀ f : Molecule, buildOne m f none keep = buildOne m f (some d) keep := by
    intro f
    simp only [buildOne, hd]
  show mapE (fun g => buildOne m g none keep) rs =
    mapE (fun g => buildOne m g (some d) keep) rs
  exact mapE_congr (fun x _ => hone x)

theorem c10_wildcard_attachment_witness :
    findDummy molCStar = some 1 ∧
    build_molecules molCStar [nullFragment] [] none none =
      build_molecules molCStar [nullFragment] [] (some 1) none :=
  ⟨by decide, c10_wildcard_attachment (by decide)⟩

/-- C3: when the attachment atom divides the scaffold into several
components and no keep override is supplied, a successful
build_molecules run keeps a component of greatest atom count as the
scaffold: the resolved kept component dominates every component in
size, and the Built Molecule's atom list starts with exactly the kept
component's atoms (the other components are discarded). -/
theorem c3_default_keeps_largest {m f res : Molecule} {t : Nat}
    (hmulti : 1 < (components m t).length)
    (h : build_molecules m [f] [] (some t) none = .ok [res]) :
    ∃ r, resolve m t none = .ok r ∧ r.kept ∈ components m t ∧
      (∀ c ∈ components m t, c.length ≤ r.kept.length) ∧
      ∃ fragPart, res.atoms = r.kept.map (fun j => m.atoms.getD j ⟨1, 0⟩) ++ fragPart := by
  have hmap : mapE (fun g => buildOne m g (some t) none) [f] = .ok [res] := h
  have hb : buildOne m f (some t) none = .ok res := by
    have hg := mapE_ok_getD Molecule.empty Molecule.empty hmap 0 (by simp)
    simpa using hg
  obtain ⟨r, hres, hmerge⟩ := buildOne_some_ok_inv hb
  obtain ⟨-, -, hsel, -, -⟩ := resolve_ok_inv hres
  obtain ⟨w, wb, -, -, -, hres_eq⟩ := mergeFragment_ok_inv hmerge
  refine ⟨r, hres, selectComponent_ok_mem hsel,
    fun c hc => dominatesComp_length_le (selectComponent_none_dominates hsel c hc),
    f.atoms.eraseIdx w, ?_⟩
  rw [hres_eq]
  rfl

theorem c3_default_keeps_largest_witness :
    1 < (components molHOH 1).length ∧
    build_molecules molHOH [nullFragment] [] (some 1) none = .ok [molHH] ∧
    ∃ r, resolve molHOH 1 none = .ok r ∧ r.kept ∈ components molHOH 1 ∧
      (∀ c ∈ components molHOH 1, c.length ≤ r.kept.length) ∧
      ∃ fragPart, molHH.atoms =
        r.kept.map (fun j => molHOH.atoms.getD j ⟨1, 0⟩) ++ fragPart :=
  ⟨by decide, by decide,
   @c3_default_keeps_largest molHOH nullFragment molHH 1 (by decide) (by decide)⟩

/-- C4: with a caller-supplied keep index the component containing that
index is the one retained, regardless of sizes; and when the index lies
in no component the resolution fails with AmbiguousSelectionError. -/
theorem c4_keep_override (m : Molecule) (t k : Nat) :
    (∀ r, resolve m t (some k) = .ok r → k ∈ r.kept ∧ r.kept ∈ components m t) ∧
    (t < m.atoms.length →
      m.bonds.any (fun b => (b.a == t || b.b == t) && decide (1 < b.order)) = false →
      (∀ c ∈ components m t, k ∉ c) →
      resolve m t (some k) = .error .ambiguousSelection) := by
  constructor
  · intro r hr
    obtain ⟨-, -, hsel, -, -⟩ := resolve_ok_inv hr
    exact ⟨selectComponent_some_ok_keep hsel, selectComponent_ok_mem hsel⟩
  · intro ht hbad hnone
    have hsel : selectComponent (components m t) (some k) = .error .ambiguousSelection :=
      selectComponent_some_not_found hnone
    simp only [resolve, ht, if_true, hbad, Bool.false_eq_true, if_false, hsel]

theorem c4_keep_override_witness :
    ((2 : Nat) ∈ (Resolved.mk [2] 2).kept ∧
      (Resolved.mk [2] 2).kept ∈ components molHOH 1) ∧
    resolve molHOH 1 (some 7) = .error .ambiguousSelection :=
  ⟨(c4_keep_override molHOH 1 2).1 ⟨[2], 2⟩ (by decide),
   (c4_keep_override molHOH 1 7).2 (by decide) (by decide) (by decide)⟩

/-- C6: the default selection is the deterministic lexicographic optimum
— the kept component has maximal atom count, and among components of
that same count it has the lowest minimum atom index, so identical
inputs always resolve to the same component. -/
theorem c6_tie_break_deterministic {m : Molecule} {t : Nat} {r : Resolved}
    (h : resolve m t none = .ok r) :
    r.kept ∈ components m t ∧
    (∀ c ∈ components m t, c.length ≤ r.kept.length) ∧
    (∀ c ∈ components m t, c.length = r.kept.length → minIdx r.kept ≤ minIdx c) := by
  obtain ⟨-, -, hsel, -, -⟩ := resolve_ok_inv h
  refine ⟨selectComponent_ok_mem hsel, ?_, ?_⟩
  · intro c hc
    exact dominatesComp_length_le (selectComponent_none_dominates hsel c hc)
  · intro c hc he
    have hd := selectComponent_none_dominates hsel c hc
    unfold dominatesComp at hd
    omega

theorem c6_tie_break_deterministic_witness :
    (Resolved.mk [0] 0).kept ∈ components molHOH 1 ∧
    (∀ c ∈ components molHOH 1, c.length ≤ (Resolved.mk [0] 0).kept.length) ∧
    (∀ c ∈ components molHOH 1, c.length = (Resolved.mk [0] 0).kept.length →
      minIdx (Resolved.mk [0] 0).kept ≤ minIdx c) :=
  c6_tie_break_deterministic (by decide)

/-- C1: when removing the attachment atom leaves a single connected
component (covering all remaining atoms), a successful build_molecules
merge of a single-wildcard R-group F into scaffold S at index i yields a
Built Molecule with atoms(S) + atoms(F) - 2 atoms: the scaffold's
replaceable atom and the fragment's wildcard are the two atoms lost. -/
theorem c1_atom_count {m f res : Molecule} {i : Nat} {c : List Nat}
    (hsingle : components m i = [c])
    (hfull : c.length + 1 = m.atoms.length)
    (hwild : f.atoms.countP isDummy = 1)
    (h : build_molecules m [f] [] (some i) none = .ok [res]) :
    res.atoms.length + 2 = m.atoms.length + f.atoms.length := by
  have hmap : mapE (fun g => buildOne m g (some i) none) [f] = .ok [res] := h
  have hb : buildOne m f (some i) none = .ok res := by
    have hg := mapE_ok_getD Molecule.empty Molecule.empty hmap 0 (by simp)
    simpa using hg
  obtain ⟨r, hres, hmerge⟩ := buildOne_some_ok_inv hb
  obtain ⟨-, -, hsel, -, -⟩ := resolve_ok_inv hres
  rw [hsingle] at hsel
  have hkept : r.kept = c := by
    have hm := selectComponent_ok_mem hsel
    simpa using hm
  obtain ⟨w, wb, hw, -, -, hres_eq⟩ := mergeFragment_ok_inv hmerge
  have hwlt : w < f.atoms.length := findWildcard_lt hw
  rw [hres_eq]
  simp [mergedMol, List.length_eraseIdx, hwlt, hkept]
  omega

theorem c1_atom_count_witness :
    components molHH 1 = [[0]] ∧ ([0] : List Nat).length + 1 = molHH.atoms.length ∧
    nullFragment.atoms.countP isDummy = 1 ∧
    build_molecules molHH [nullFragment] [] (some 1) none = .ok [molHH] ∧
    molHH.atoms.length + 2 = molHH.atoms.length + nullFragment.atoms.length :=
  ⟨by decide, by decide, by decide, by decide,
   @c1_atom_count molHH nullFragment molHH 1 [0] (by decide) (by decide) (by decide)
     (by decide)⟩

/-- Model of the test_replace_methyl scaffold: aminopyridine acetamide
with an N-acetyl methyl carbon at index 8 (its three hydrogens at 9, 10
and 11), mirroring the SMILES atom ordering of the test. -/
def methylScaffold : Molecule :=
  ⟨[⟨1, 0⟩, ⟨6, 0⟩, ⟨7, 0⟩, ⟨6, 0⟩, ⟨7, 0⟩, ⟨1, 0⟩, ⟨6, 0⟩, ⟨8, 0⟩, ⟨6, 0⟩,
    ⟨1, 0⟩, ⟨1, 0⟩, ⟨1, 0⟩, ⟨6, 0⟩, ⟨1, 0⟩, ⟨6, 0⟩, ⟨1, 0⟩, ⟨6, 0⟩, ⟨1, 0⟩],
   [⟨0, 1, 1⟩, ⟨1, 2, 1⟩, ⟨2, 3, 1⟩, ⟨3, 4, 1⟩, ⟨4, 5, 1⟩, ⟨4, 6, 1⟩, ⟨6, 7, 2⟩,
    ⟨6, 8, 1⟩, ⟨8, 9, 1⟩, ⟨8, 10, 1⟩, ⟨8, 11, 1⟩, ⟨3, 12, 1⟩, ⟨12, 13, 1⟩,
    ⟨12, 14, 1⟩, ⟨14, 15, 1⟩, ⟨14, 16, 1⟩, ⟨16, 17, 1⟩, ⟨16, 1, 1⟩]⟩

/-- Model of the library ethanol R-group *CCO with explicit hydrogens. -/
def ethanolFragment : Molecule :=
  ⟨[⟨0, 1⟩, ⟨6, 0⟩, ⟨6, 0⟩, ⟨8, 0⟩, ⟨1, 0⟩, ⟨1, 0⟩, ⟨1, 0⟩, ⟨1, 0⟩, ⟨1, 0⟩],
   [⟨0, 1, 1⟩, ⟨1, 2, 1⟩, ⟨2, 3, 1⟩, ⟨1, 4, 1⟩, ⟨1, 5, 1⟩, ⟨2, 6, 1⟩, ⟨2, 7, 1⟩,
    ⟨3, 8, 1⟩]⟩

/-- C9: an attachment index naming the multiply-bonded non-hydrogen
methyl carbon (index 8) is accepted rather than rejected with
UnsupportedAttachmentError: removal splits off the methyl carbon with
its three hydrogens, the largest component is kept with the carbonyl
carbon 6 as anchor, and the ethanol R-group is attached there — 18
scaffold atoms lose the 4-atom methyl component and gain the 8 non-
wildcard ethanol atoms, leaving 22 atoms and no dummy atom. -/
theorem c9_replace_methyl :
    resolve methylScaffold 8 none =
      .ok ⟨[0, 1, 2, 3, 4, 5, 6, 7, 12, 13, 14, 15, 16, 17], 6⟩ ∧
    (buildOne methylScaffold ethanolFragment (some 8) none).toOption.map
      (fun r => (r.atoms.length, r.atoms.countP isDummy)) = some (22, 0) := by
  decide

/-! ### Counting and renumbering helpers for the merge invariants -/

theorem length_filter_lt_of_mem {l : List α} {p : α → Bool} {x : α}
    (hx : x ∈ l) (hpx : p x = false) : (l.filter p).length < l.length := by
  induction l with
  | nil => cases hx
  | cons a l ih =>
    rcases List.mem_cons.mp hx with rfl | hx
    · rw [List.filter_cons, hpx]
      simpa using Nat.lt_succ_of_le (List.length_filter_le p l)
    · rw [List.filter_cons]
      split
      · simpa using ih hx
      · exact Nat.lt_succ_of_lt (ih hx)

theorem newIndex_lt_of_mem {kept : List Nat} {j : Nat} (h : j ∈ kept) :
    newIndex kept j < kept.length :=
  length_filter_lt_of_mem h (by simp)

theorem countP_eq_length_filter_range (p : α → Bool) (d : α) :
    ∀ l : List α,
      l.countP p = ((List.range l.length).filter (fun j => p (l.getD j d))).length := by
  intro l
  induction l with
  | nil => simp
  | cons a l ih =>
    rw [List.countP_cons, List.length_cons, List.range_succ_eq_map, List.filter_cons]
    have hmap : (List.map Nat.succ (List.range l.length)).filter
        (fun j => p ((a :: l).getD j d)) =
        List.map Nat.succ ((List.range l.length).filter (fun j => p (l.getD j d))) := by
      rw [List.filter_map]
      congr 1
    simp only [List.getD_cons_zero]
    split
    · rw [List.length_cons, hmap, List.length_map, ih]
    · rw [hmap, List.length_map, ih]
      omega

theorem countP_eraseIdx_add {l : List α} {p : α → Bool} {i : Nat} (h : i < l.length) :
    (l.eraseIdx i).countP p + (if p l[i] then 1 else 0) = l.countP p := by
  rw [List.eraseIdx_eq_take_drop_succ, List.countP_append]
  conv_rhs => rw [← List.take_append_drop i l]
  rw [List.countP_append, List.drop_eq_getElem_cons h, List.countP_cons]
  omega

theorem fragIndex_inj {w x y : Nat} (hx : x ≠ w) (hy : y ≠ w)
    (h : fragIndex w x = fragIndex w y) : x = y := by
  unfold fragIndex at h
  split at h <;> split at h <;> omega

theorem findIdx?_eq_some_of {l : List α} {p : α → Bool} {i : Nat} (d : α)
    (h : i < l.length)
    (hall : ∀ j, j < i → p (l.getD j d) = false)
    (hp : p (l.getD i d) = true) : l.findIdx? p = some i := by
  refine List.findIdx?_eq_some_iff_findIdx_eq.mpr ⟨h, (List.findIdx_eq h).mpr ⟨?_, ?_⟩⟩
  · rwa [List.getD_eq_getElem _ _ h] at hp
  · intro j hj
    have hj2 := hall j hj
    rwa [List.getD_eq_getElem _ _ (Nat.lt_trans hj h)] at hj2

/-- C5: merging a linker fragment (two wildcards, the label-1 one
consumed, the label-2 one kept) onto a wildcard-free scaffold leaves
exactly one dummy atom in the Built Molecule, and that dummy atom
carries exactly one bond (one open attachment slot). -/
theorem c5_linker_merge_one_open_wildcard
    {m f res : Molecule} {t : Nat} {keep : Option Nat} {w1 w2 : Nat} {b2 : Bond}
    (hmclean : ∀ a ∈ m.atoms, isDummy a = false)
    (hdummies : (List.range f.atoms.length).filter
      (fun j => isDummy (f.atoms.getD j ⟨1, 0⟩)) = [w1, w2])
    (hlab1 : (f.atoms.getD w1 ⟨1, 0⟩).label = 1)
    (hlab2 : (f.atoms.getD w2 ⟨1, 0⟩).label = 2)
    (hb2 : incidentBonds f w2 = [b2])
    (hb2a : b2.a ≠ w1) (hb2b : b2.b ≠ w1)
    (hwf : ∀ b ∈ f.bonds, b.a < f.atoms.length ∧ b.b < f.atoms.length ∧ b.a ≠ b.b)
    (h : buildOne m f (some t) keep = .ok res) :
    res.atoms.countP isDummy = 1 ∧
    ∀ k, k < res.atoms.length → isDummy (res.atomAt k) = true →
      (incidentBonds res k).length = 1 := by
  obtain ⟨r, hres, hmerge⟩ := buildOne_some_ok_inv h
  obtain ⟨-, -, -, hanchor, -⟩ := resolve_ok_inv hres
  obtain ⟨w, wb, hw, hib, -, hres_eq⟩ := mergeFragment_ok_inv hmerge
  have hdum_iff : ∀ j, (j < f.atoms.length ∧ isDummy (f.atoms.getD j ⟨1, 0⟩) = true) ↔
      (j = w1 ∨ j = w2) := by
    intro j
    constructor
    · intro hj
      have hmem : j ∈ (List.range f.atoms.length).filter
          (fun j => isDummy (f.atoms.getD j ⟨1, 0⟩)) :=
        List.mem_filter.mpr ⟨List.mem_range.mpr hj.1, hj.2⟩
      rw [hdummies] at hmem
      simpa using hmem
    · intro hj
      have hmem : j ∈ [w1, w2] := by rcases hj with rfl | rfl <;> simp
      rw [← hdummies] at hmem
      have hm := List.mem_filter.mp hmem
      exact ⟨List.mem_range.mp hm.1, hm.2⟩
  have hw1lt : w1 < f.atoms.length := ((hdum_iff w1).mpr (Or.inl rfl)).1
  have hw1d : isDummy (f.atoms.getD w1 ⟨1, 0⟩) = true := ((hdum_iff w1).mpr (Or.inl rfl)).2
  have hw2lt : w2 < f.atoms.length := ((hdum_iff w2).mpr (Or.inr rfl)).1
  have hw2d : isDummy (f.atoms.getD w2 ⟨1, 0⟩) = true := ((hdum_iff w2).mpr (Or.inr rfl)).2
  have hw1w2 : w1 < w2 := by
    have hp := (List.pairwise_lt_range f.atoms.length).filter
      (fun j => isDummy (f.atoms.getD j ⟨1, 0⟩))
    rw [hdummies] at hp
    exact (List.pairwise_cons.mp hp).1 w2 (by simp)
  have hww1 : w = w1 := by
    have hfw : findWildcard f = some w1 := by
      unfold findWildcard
      have hfind : f.atoms.findIdx? (fun a => isDummy a && a.label == 1) = some w1 := by
        apply findIdx?_eq_some_of ⟨1, 0⟩ hw1lt
        · intro j hj
          cases hdj : isDummy (f.atoms.getD j ⟨1, 0⟩) with
          | false => simp [hdj]
          | true =>
            exfalso
            have hor : j = w1 ∨ j = w2 :=
              (hdum_iff j).mp ⟨Nat.lt_trans hj hw1lt, hdj⟩
            omega
        · simp only [Bool.and_eq_true, beq_iff_eq]
          exact ⟨hw1d, hlab1⟩
      rw [hfind]
    rw [hfw] at hw
    exact (Option.some.inj hw).symm
  subst hww1
  subst hres_eq
  -- the scaffold part of the merged atom arena holds no dummy atom
  have hmapdummy : (r.kept.map (fun j => m.atoms.getD j ⟨1, 0⟩)).countP isDummy = 0 := by
    rw [List.countP_eq_zero]
    intro a ha
    obtain ⟨j, hj, rfl⟩ := List.mem_map.mp ha
    by_cases hjm : j < m.atoms.length
    · rw [List.getD_eq_getElem _ _ hjm]
      simp [hmclean _ (List.getElem_mem hjm)]
    · rw [List.getD_eq_default _ _ (Nat.le_of_not_lt hjm)]
      simp [isDummy]
  have hcount_f : f.atoms.countP isDummy = 2 := by
    rw [countP_eq_length_filter_range isDummy ⟨1, 0⟩, hdummies]
    rfl
  have hw1dget : isDummy f.atoms[w] = true := by
    rwa [List.getD_eq_getElem _ _ hw1lt] at hw1d
  have herasecount : (f.atoms.eraseIdx w).countP isDummy = 1 := by
    have hsum : (f.atoms.eraseIdx w).countP isDummy +
        (if isDummy f.atoms[w] then 1 else 0) = f.atoms.countP isDummy :=
      countP_eraseIdx_add hw1lt
    rw [hcount_f, hw1dget, if_pos rfl] at hsum
    omega
  have hcount : ((r.kept.map (fun j => m.atoms.getD j ⟨1, 0⟩)) ++
      f.atoms.eraseIdx w).countP isDummy = 1 := by
    rw [List.countP_append, hmapdummy, herasecount]
  refine ⟨hcount, ?_⟩
  -- characterise the position of the surviving dummy
  have hfi : fragIndex w w2 = w2 - 1 := by
    unfold fragIndex
    rw [if_neg (by omega)]
  have heraselen : (f.atoms.eraseIdx w).length = f.atoms.length - 1 := by
    rw [List.length_eraseIdx]
    simp [hw1lt]
  have hchar : ∀ k, k < ((r.kept.map (fun j => m.atoms.getD j ⟨1, 0⟩)) ++
      f.atoms.eraseIdx w).length →
      isDummy (((r.kept.map (fun j => m.atoms.getD j ⟨1, 0⟩)) ++
        f.atoms.eraseIdx w).getD k ⟨1, 0⟩) = true →
      k = r.kept.length + fragIndex w w2 := by
    intro k hk hd
    have hmaplen : (r.kept.map (fun j => m.atoms.getD j ⟨1, 0⟩)).length = r.kept.length :=
      List.length_map _ _
    by_cases hkA : k < r.kept.length
    · exfalso
      rw [List.getD_append _ _ _ _ (by omega)] at hd
      have hmem : (r.kept.map (fun j => m.atoms.getD j ⟨1, 0⟩)).getD k ⟨1, 0⟩ ∈
          r.kept.map (fun j => m.atoms.getD j ⟨1, 0⟩) := by
        rw [List.getD_eq_getElem _ _ (by omega)]
        exact List.getElem_mem _
      have := List.countP_eq_zero.mp hmapdummy _ hmem
      exact this hd
    · have hkA2 : r.kept.length ≤ k := Nat.le_of_not_lt hkA
      rw [List.getD_append_right _ _ _ _ (by omega)] at hd
      rw [hmaplen] at hd
      have hklt : k - r.kept.length < (f.atoms.eraseIdx w).length := by
        rw [List.length_append, hmaplen] at hk
        omega
      rw [List.getD_eq_getElem _ _ hklt, List.getElem_eraseIdx] at hd
      split at hd
      · rename_i hlt
        exfalso
        have hor : k - r.kept.length = w ∨ k - r.kept.length = w2 :=
          (hdum_iff _).mp ⟨by omega,
            by rwa [List.getD_eq_getElem _ _ (by omega : k - r.kept.length < f.atoms.length)]⟩
        omega
      · rename_i hge
        have hjlt : k - r.kept.length + 1 < f.atoms.length := by
          rw [heraselen] at hklt
          omega
        have hor : k - r.kept.length + 1 = w ∨ k - r.kept.length + 1 = w2 :=
          (hdum_iff _).mp ⟨hjlt, by rwa [List.getD_eq_getElem _ _ hjlt]⟩
        rw [hfi]
        omega
  intro k hk hd
  simp only [Molecule.atomAt] at hd
  have hkd := hchar k hk hd
  subst hkd
  -- the open wildcard keeps exactly the one bond it had in the linker
  have hwbmem : wb ∈ f.bonds ∧ (wb.a == w || wb.b == w) = true := by
    have : wb ∈ incidentBonds f w := by rw [hib]; simp
    exact List.mem_filter.mp this
  obtain ⟨hwba, hwbb, hwbne⟩ := hwf wb hwbmem.1
  have hfnb_ne_w : otherEnd wb w ≠ w := by
    unfold otherEnd
    rcases Bool.or_eq_true _ _ |>.mp hwbmem.2 with hc | hc
    · rw [if_pos hc]
      have := beq_iff_eq.mp hc
      omega
    · by_cases hca : (wb.a == w) = true
      · rw [if_pos hca]
        have := beq_iff_eq.mp hca
        omega
      · rw [if_neg hca]
        intro hcc
        exact hca (beq_iff_eq.mpr hcc)
  have hfnb_ne_w2 : otherEnd wb w ≠ w2 := by
    intro hc
    have hwb2 : wb ∈ incidentBonds f w2 := by
      apply List.mem_filter.mpr
      refine ⟨hwbmem.1, ?_⟩
      unfold otherEnd at hc
      by_cases hca : (wb.a == w) = true
      · rw [if_pos hca] at hc
        simp [hc]
      · rw [if_neg hca] at hc
        simp [hc]
    rw [hb2] at hwb2
    have : wb = b2 := by simpa using hwb2
    subst this
    rcases Bool.or_eq_true _ _ |>.mp hwbmem.2 with hc2 | hc2
    · exact hb2a (beq_iff_eq.mp hc2)
    · exact hb2b (beq_iff_eq.mp hc2)
  -- compute the incident-bond list of the merged molecule at the dummy
  show (incidentBonds
    (mergedMol m r.kept r.anchor f w wb) (r.kept.length + fragIndex w w2)).length = 1
  unfold incidentBonds mergedMol
  rw [List.filter_append, List.filter_append, List.length_append, List.length_append]
  have hscaff : ((m.bonds.filter
      (fun b => r.kept.contains b.a && r.kept.contains b.b)).map
      (fun b => (⟨newIndex r.kept b.a, newIndex r.kept b.b, b.order⟩ : Bond))).filter
      (fun b => b.a == r.kept.length + fragIndex w w2 ||
        b.b == r.kept.length + fragIndex w w2) = [] := by
    rw [List.filter_eq_nil_iff]
    intro x hx
    obtain ⟨b, hb, rfl⟩ := List.mem_map.mp hx
    have hbf := List.mem_filter.mp hb
    obtain ⟨hca, hcb⟩ := Bool.and_eq_true _ _ |>.mp hbf.2
    have hma : b.a ∈ r.kept := by simpa [List.contains, List.elem_iff] using hca
    have hmb : b.b ∈ r.kept := by simpa [List.contains, List.elem_iff] using hcb
    have h1 := newIndex_lt_of_mem hma
    have h2 := newIndex_lt_of_mem hmb
    simp only [Bool.or_eq_true, beq_iff_eq]
    intro hc
    rcases hc with hc | hc <;> omega
  have hnewb : ([(⟨newIndex r.kept r.anchor,
      r.kept.length + fragIndex w (otherEnd wb w), wb.order⟩ : Bond)]).filter
      (fun b => b.a == r.kept.length + fragIndex w w2 ||
        b.b == r.kept.length + fragIndex w w2) = [] := by
    rw [List.filter_eq_nil_iff]
    intro x hx
    have hxx : x = (⟨newIndex r.kept r.anchor,
        r.kept.length + fragIndex w (otherEnd wb w), wb.order⟩ : Bond) := by simpa using hx
    subst hxx
    have h1 := newIndex_lt_of_mem hanchor
    simp only [Bool.or_eq_true, beq_iff_eq]
    intro hc
    rcases hc with hc | hc
    · omega
    · have : fragIndex w (otherEnd wb w) = fragIndex w w2 := by omega
      exact hfnb_ne_w2 (fragIndex_inj hfnb_ne_w (by omega) this)
  have hfragb : (((f.bonds.filter (fun b => !(b.a == w) && !(b.b == w))).map
      (fun b => (⟨r.kept.length + fragIndex w b.a,
        r.kept.length + fragIndex w b.b, b.order⟩ : Bond))).filter
      (fun b => b.a == r.kept.length + fragIndex w w2 ||
        b.b == r.kept.length + fragIndex w w2)).length = 1 := by
    rw [List.filter_map, List.length_map]
    show ((f.bonds.filter (fun b => !(b.a == w) && !(b.b == w))).filter
      (fun b => r.kept.length + fragIndex w b.a == r.kept.length + fragIndex w w2 ||
        r.kept.length + fragIndex w b.b == r.kept.length + fragIndex w w2)).length = 1
    have hpointwise : ∀ b ∈ f.bonds.filter (fun b => !(b.a == w) && !(b.b == w)),
        (r.kept.length + fragIndex w b.a == r.kept.length + fragIndex w w2 ||
         r.kept.length + fragIndex w b.b == r.kept.length + fragIndex w w2) =
        (b.a == w2 || b.b == w2) := by
      intro b hbmem
      have hbm := List.mem_filter.mp hbmem
      obtain ⟨hba, hbb, hbne⟩ := hwf b hbm.1
      have hrp := hbm.2
      simp only [Bool.and_eq_true, Bool.not_eq_true', beq_eq_false_iff_ne] at hrp
      rw [Bool.eq_iff_iff]
      simp only [Bool.or_eq_true, beq_iff_eq]
      constructor
      · rintro (hc | hc)
        · exact Or.inl (fragIndex_inj hrp.1 (Nat.ne_of_gt hw1w2) (Nat.add_left_cancel hc))
        · exact Or.inr (fragIndex_inj hrp.2 (Nat.ne_of_gt hw1w2) (Nat.add_left_cancel hc))
      · rintro (hor | hor)
        · exact Or.inl (by rw [hor])
        · exact Or.inr (by rw [hor])
    rw [List.filter_congr hpointwise, List.filter_comm]
    rw [show f.bonds.filter (fun b => b.a == w2 || b.b == w2) = [b2] from hb2]
    rw [List.filter_cons]
    have hb2keep : (!(b2.a == w) && !(b2.b == w)) = true := by
      simp only [Bool.and_eq_true, Bool.not_eq_true', beq_eq_false_iff_ne]
      exact ⟨hb2a, hb2b⟩
    rw [hb2keep]
    simp
  rw [hscaff, hnewb, hfragb]
  simp

/-- The Built Molecule of the witness linker merge: H, C and the open
label-2 wildcard. -/
def c5res : Molecule := ⟨[⟨1, 0⟩, ⟨6, 0⟩, ⟨0, 2⟩], [⟨1, 2, 1⟩, ⟨0, 1, 1⟩]⟩

theorem c5_linker_merge_one_open_wildcard_witness :
    buildOne molHH linkerC (some 1) none = .ok c5res ∧
    (c5res.atoms.countP isDummy = 1 ∧
     ∀ k, k < c5res.atoms.length → isDummy (c5res.atomAt k) = true →
       (incidentBonds c5res k).length = 1) :=
  ⟨by decide,
   @c5_linker_merge_one_open_wildcard molHH linkerC c5res 1 none 0 2 ⟨1, 2, 1⟩
     (by decide) (by decide) (by decide) (by decide) (by decide) (by decide)
     (by decide) (by decide) (by decide)⟩

/-! ### Closed forms for the kept index set of a single-component removal -/

theorem range_filter_lt (k : Nat) :
    ∀ n, (List.range n).filter (fun x => decide (x < k)) = List.range (min k n) := by
  intro n
  induction n with
  | zero => simp
  | succ n ih =>
    rw [List.range_succ, List.filter_append, ih]
    by_cases hnk : n < k
    · have hmin1 : min k (n + 1) = min k n + 1 := by omega
      have hmin2 : min k n = n := by omega
      rw [hmin1, hmin2, List.range_succ]
      simp [hnk]
    · have hmin1 : min k (n + 1) = min k n := by omega
      rw [hmin1]
      simp [hnk]

theorem range_filter_ne {n i : Nat} (h : i < n) :
    (List.range n).filter (fun x => x != i) =
      List.range i ++ (List.range (n - 1 - i)).map (fun x => x + (i + 1)) := by
  induction n with
  | zero => cases h
  | succ n ih =>
    by_cases hin : i < n
    · rw [List.range_succ, List.filter_append, ih hin]
      have hne : (n != i) = true := by simp; omega
      have hsub : n - i = (n - 1 - i) + 1 := by omega
      have hr : List.range (n + 1 - 1 - i) = List.range (n - 1 - i) ++ [n - 1 - i] := by
        rw [show n + 1 - 1 - i = n - i from by omega, hsub, List.range_succ]
      rw [hr, List.map_append, ← List.append_assoc]
      simp [hne]
      omega
    · have hieq : i = n := by omega
      subst hieq
      rw [List.range_succ, List.filter_append]
      have h1 : (List.range i).filter (fun x => x != i) = List.range i := by
        rw [List.filter_eq_self]
        intro a ha
        have := List.mem_range.mp ha
        simp
        omega
      have h2 : ([i].filter (fun x => x != i)) = [] := by simp
      rw [h1, h2]
      simp

theorem range_filter_ne_length {n i : Nat} (h : i < n) :
    ((List.range n).filter (fun x => x != i)).length = n - 1 := by
  rw [range_filter_ne h, List.length_append, List.length_map, List.length_range,
    List.length_range]
  omega

theorem range_filter_ne_getD {n i k : Nat} (h : i < n) (hk : k < n - 1) :
    ((List.range n).filter (fun x => x != i)).getD k 0 = if k < i then k else k + 1 := by
  rw [range_filter_ne h]
  by_cases hki : k < i
  · rw [List.getD_append _ _ _ _ (by simpa using hki), if_pos hki]
    rw [List.getD_eq_getElem _ _ (by simpa using hki), List.getElem_range]
  · rw [List.getD_append_right _ _ _ _ (by simpa using Nat.le_of_not_lt hki), if_neg hki]
    rw [List.length_range]
    have hlt : k - i < (List.range (n - 1 - i)).length := by
      rw [List.length_range]; omega
    rw [List.getD_eq_getElem _ _ (by simpa using hlt), List.getElem_map, List.getElem_range]
    omega

theorem newIndex_range_filter_ne {n i j : Nat} (h : i < n) (hj : j < n) (hne : j ≠ i) :
    newIndex ((List.range n).filter (fun x => x != i)) j =
      if j < i then j else j - 1 := by
  unfold newIndex
  rw [range_filter_ne h, List.filter_append, List.length_append, range_filter_lt,
    List.filter_map, List.length_map]
  by_cases hji : j < i
  · rw [if_pos hji]
    have hmin : min j i = j := by omega
    have hnil : (List.range (n - 1 - i)).filter
        ((fun x => decide (x < j)) ∘ (fun x => x + (i + 1))) = [] := by
      rw [List.filter_eq_nil_iff]
      intro a _
      simp [Function.comp]
      omega
    rw [hmin, hnil]
    simp
  · rw [if_neg hji]
    have hmin : min j i = i := by omega
    have hcongr : (List.range (n - 1 - i)).filter
        ((fun x => decide (x < j)) ∘ (fun x => x + (i + 1))) =
        (List.range (n - 1 - i)).filter (fun x => decide (x < j - (i + 1))) := by
      apply List.filter_congr
      intro x _
      simp [Function.comp]
      omega
    rw [hmin, hcongr, range_filter_lt, List.length_range, List.length_range]
    omega

/-- The index bijection of the null-fragment round trip: kept atoms below
the removed index keep their index, kept atoms above shift down into the
gap, and the appended fragment hydrogen (last index) takes the removed
atom's place. -/
def sigmaFill (i n : Nat) : Nat → Nat :=
  fun k => if k < i then k else if k = n - 1 then i else k + 1

theorem sigmaFill_lt {i n k : Nat} (hi : i < n) (hk : k < n) : sigmaFill i n k < n := by
  unfold sigmaFill
  split_ifs <;> omega

theorem sigmaFill_inj {i n k1 k2 : Nat} (hi : i < n) (h1 : k1 < n) (h2 : k2 < n)
    (h : sigmaFill i n k1 = sigmaFill i n k2) : k1 = k2 := by
  unfold sigmaFill at h
  split_ifs at h <;> omega

theorem sigmaFill_eq_i_iff {i n k : Nat} (hi : i < n) (hk : k < n) :
    (sigmaFill i n k = i ↔ k = n - 1) := by
  unfold sigmaFill
  split_ifs <;> omega

theorem sigmaFill_rho {i n x : Nat} (hi : i < n) (hx : x < n) (hne : x ≠ i) :
    sigmaFill i n (if x < i then x else x - 1) = x := by
  unfold sigmaFill
  split_ifs <;> omega

theorem rho_sigmaFill {i n k : Nat} (hi : i < n) (hk : k < n - 1) :
    (if sigmaFill i n k < i then sigmaFill i n k else sigmaFill i n k - 1) = k := by
  unfold sigmaFill
  split_ifs <;> omega

theorem sigmaFill_ne_i {i n k : Nat} (hi : i < n) (hk : k < n - 1) :
    sigmaFill i n k ≠ i := by
  unfold sigmaFill
  split_ifs <;> omega

theorem sigmaFill_lt_mid {i n k : Nat} (hi : i < n) (hk : k < n - 1) :
    sigmaFill i n k < n := by
  unfold sigmaFill
  split_ifs <;> omega

theorem sigmaFill_last {i n : Nat} (hi : i < n) : sigmaFill i n (n - 1) = i := by
  unfold sigmaFill
  split_ifs <;> omega

theorem sigmaFill_mid {i n k : Nat} (hi : i < n) (hk : k < n - 1) :
    sigmaFill i n k = if k < i then k else k + 1 := by
  unfold sigmaFill
  split_ifs <;> omega

/-- C7: merging the null fragment (one label-1 wildcard bonded to a
single hydrogen) onto a scaffold at a replaceable hydrogen whose removal
keeps the scaffold connected reproduces the original scaffold: the Built
Molecule is isomorphic, as a labelled graph, to the input, with the new
hydrogen standing exactly where the replaced one stood. -/
theorem c7_null_fragment_round_trip {m res : Molecule} {i : Nat} {b0 : Bond}
    (hwf : ∀ b ∈ m.bonds, b.a < m.atoms.length ∧ b.b < m.atoms.length ∧ b.a ≠ b.b)
    (hi : i < m.atoms.length)
    (hH : m.atoms.getD i ⟨1, 0⟩ = ⟨1, 0⟩)
    (hinc : incidentBonds m i = [b0])
    (hord : b0.order = 1)
    (hcomp : components m i = [(List.range m.atoms.length).filter (fun j => j != i)])
    (h : buildOne m nullFragment (some i) none = .ok res) :
    Molecule.iso res m := by
  obtain ⟨r, hres, hmerge⟩ := buildOne_some_ok_inv h
  obtain ⟨-, -, hsel, hanchor_kept, hanchor_nb⟩ := resolve_ok_inv hres
  rw [hcomp] at hsel
  have hkept : r.kept = (List.range m.atoms.length).filter (fun j => j != i) := by
    simpa using selectComponent_ok_mem hsel
  have hb0mem : b0 ∈ m.bonds := by
    have hm : b0 ∈ incidentBonds m i := by rw [hinc]; simp
    exact (List.mem_filter.mp hm).1
  have hb0inc : (b0.a == i || b0.b == i) = true := by
    have hm : b0 ∈ incidentBonds m i := by rw [hinc]; simp
    exact (List.mem_filter.mp hm).2
  obtain ⟨hb0a, hb0b, hb0ne⟩ := hwf b0 hb0mem
  have hanchor : r.anchor = otherEnd b0 i := by
    have hnb : neighbors m i = [otherEnd b0 i] := by
      unfold neighbors
      rw [hinc]
      rfl
    rw [hnb] at hanchor_nb
    simpa using hanchor_nb
  have ha0ne : otherEnd b0 i ≠ i := by
    unfold otherEnd
    by_cases hc : (b0.a == i) = true
    · rw [if_pos hc]
      have := beq_iff_eq.mp hc
      omega
    · rw [if_neg hc]
      simp at hc
      exact hc
  have ha0lt : otherEnd b0 i < m.atoms.length := by
    unfold otherEnd
    by_cases hc : (b0.a == i) = true
    · rw [if_pos hc]; exact hb0b
    · rw [if_neg hc]; exact hb0a
  obtain ⟨w, wb, hw, hib, -, hres_eq⟩ := mergeFragment_ok_inv hmerge
  have hw0 : w = 0 := by
    have hfw : findWildcard nullFragment = some 0 := rfl
    rw [hfw] at hw
    exact (Option.some.inj hw).symm
  subst hw0
  have hwb : wb = ⟨0, 1, 1⟩ := by
    have hibc : incidentBonds nullFragment 0 = [⟨0, 1, 1⟩] := rfl
    rw [hibc] at hib
    obtain ⟨h1, -⟩ := List.cons.inj hib
    exact h1.symm
  subst hwb
  subst hres_eq
  have hklen : r.kept.length = m.atoms.length - 1 := by
    rw [hkept]
    exact range_filter_ne_length hi
  have hmemkc : ∀ x, x ∈ r.kept ↔ (x < m.atoms.length ∧ x ≠ i) := by
    intro x
    rw [hkept]
    simp [List.mem_filter, List.mem_range]
  have hnewIdx : ∀ j, j < m.atoms.length → j ≠ i →
      newIndex r.kept j = if j < i then j else j - 1 := by
    intro j hj hjne
    rw [hkept]
    exact newIndex_range_filter_ne hi hj hjne
  have hatoms : (mergedMol m r.kept r.anchor nullFragment 0 ⟨0, 1, 1⟩).atoms =
      r.kept.map (fun j => m.atoms.getD j ⟨1, 0⟩) ++ [⟨1, 0⟩] := rfl
  have hbonds : (mergedMol m r.kept r.anchor nullFragment 0 ⟨0, 1, 1⟩).bonds =
      ((m.bonds.filter (fun b => r.kept.contains b.a && r.kept.contains b.b)).map
        (fun b => (⟨newIndex r.kept b.a, newIndex r.kept b.b, b.order⟩ : Bond))) ++
      [⟨newIndex r.kept r.anchor, r.kept.length, 1⟩] := by
    show _ ++ ([] : List Bond) ++ _ = _
    rw [List.append_nil]
    rfl
  have hreslen : (mergedMol m r.kept r.anchor nullFragment 0 ⟨0, 1, 1⟩).atoms.length =
      m.atoms.length := by
    rw [hatoms, List.length_append, List.length_map, hklen]
    simp
    omega
  refine ⟨sigmaFill i m.atoms.length, hreslen, ?_, ?_, ?_, ?_⟩
  · intro k hk
    rw [hreslen] at hk
    exact sigmaFill_lt hi hk
  · intro k1 k2 hk1 hk2
    rw [hreslen] at hk1 hk2
    exact sigmaFill_inj hi hk1 hk2
  · -- atom correspondence
    intro k hk
    rw [hreslen] at hk
    unfold Molecule.atomAt
    rw [hatoms]
    by_cases hklast : k = m.atoms.length - 1
    · subst hklast
      rw [List.getD_append_right _ _ _ _
        (by rw [List.length_map, hklen])]
      rw [List.length_map, hklen, Nat.sub_self, List.getD_cons_zero]
      rw [sigmaFill_last hi]
      exact hH.symm
    · have hkmid : k < m.atoms.length - 1 := by omega
      rw [List.getD_append _ _ _ _ (by rw [List.length_map, hklen]; omega)]
      have hmaplt : k < (r.kept.map (fun j => m.atoms.getD j ⟨1, 0⟩)).length := by
        rw [List.length_map, hklen]; omega
      rw [List.getD_eq_getElem _ _ hmaplt, List.getElem_map]
      have hkclt : k < r.kept.length := by rw [hklen]; omega
      have hgetkc : r.kept.getD k 0 = if k < i then k else k + 1 := by
        rw [hkept]
        exact range_filter_ne_getD hi hkmid
      rw [← List.getD_eq_getElem r.kept 0 hkclt, hgetkc, sigmaFill_mid hi hkmid]
  · -- bond correspondence
    intro u v o hu hv
    rw [hreslen] at hu hv
    unfold hasBondP
    rw [hbonds]
    constructor
    · rintro ⟨b', hb'mem, hmatch, horder⟩
      rcases List.mem_append.mp hb'mem with hb's | hb'n
      · -- an internal scaffold bond
        obtain ⟨b, hbf, rfl⟩ := List.mem_map.mp hb's
        have hbm := List.mem_filter.mp hbf
        obtain ⟨hca, hcb⟩ := Bool.and_eq_true _ _ |>.mp hbm.2
        obtain ⟨hban, hbane⟩ := (hmemkc b.a).mp
          (by simpa [List.contains, List.elem_iff] using hca)
        obtain ⟨hbbn, hbbne⟩ := (hmemkc b.b).mp
          (by simpa [List.contains, List.elem_iff] using hcb)
        have hrhoa : newIndex r.kept b.a = if b.a < i then b.a else b.a - 1 :=
          hnewIdx _ hban hbane
        have hrhob : newIndex r.kept b.b = if b.b < i then b.b else b.b - 1 :=
          hnewIdx _ hbbn hbbne
        rcases hmatch with ⟨h1, h2⟩ | ⟨h1, h2⟩
        · refine ⟨b, hbm.1, Or.inl ⟨?_, ?_⟩, by simpa using horder⟩
          · rw [← h1]
            show b.a = sigmaFill i m.atoms.length (newIndex r.kept b.a)
            rw [hrhoa, sigmaFill_rho hi hban hbane]
          · rw [← h2]
            show b.b = sigmaFill i m.atoms.length (newIndex r.kept b.b)
            rw [hrhob, sigmaFill_rho hi hbbn hbbne]
        · refine ⟨b, hbm.1, Or.inr ⟨?_, ?_⟩, by simpa using horder⟩
          · rw [← h1]
            show b.a = sigmaFill i m.atoms.length (newIndex r.kept b.a)
            rw [hrhoa, sigmaFill_rho hi hban hbane]
          · rw [← h2]
            show b.b = sigmaFill i m.atoms.length (newIndex r.kept b.b)
            rw [hrhob, sigmaFill_rho hi hbbn hbbne]
      · -- the new anchor-to-hydrogen bond corresponds to the removed one
        have hb'eq : b' = (⟨newIndex r.kept r.anchor, r.kept.length, 1⟩ : Bond) := by
          simpa using hb'n
        subst hb'eq
        have ho1 : o = 1 := by simpa using horder.symm
        subst ho1
        have hrhoanch : newIndex r.kept r.anchor =
            if otherEnd b0 i < i then otherEnd b0 i else otherEnd b0 i - 1 := by
          rw [hanchor]
          exact hnewIdx _ ha0lt ha0ne
        rcases hmatch with ⟨h1, h2⟩ | ⟨h1, h2⟩
        · -- u is the anchor image, v is the fresh hydrogen
          have hsu : sigmaFill i m.atoms.length u = otherEnd b0 i := by
            rw [← h1, hrhoanch]
            exact sigmaFill_rho hi ha0lt ha0ne
          have hsv : sigmaFill i m.atoms.length v = i := by
            rw [← h2, hklen]
            exact sigmaFill_last hi
          refine ⟨b0, hb0mem, ?_, hord⟩
          by_cases hc : (b0.a == i) = true
          · have hbaeq := beq_iff_eq.mp hc
            refine Or.inr ⟨by rw [hsv, hbaeq], ?_⟩
            rw [hsu]
            unfold otherEnd
            rw [if_pos hc]
          · rcases Bool.or_eq_true _ _ |>.mp hb0inc with hc2 | hc2
            · exact absurd hc2 hc
            · have hbbeq := beq_iff_eq.mp hc2
              refine Or.inl ⟨?_, by rw [hsv, hbbeq]⟩
              rw [hsu]
              unfold otherEnd
              rw [if_neg hc]
        · -- v is the anchor image, u is the fresh hydrogen
          have hsv : sigmaFill i m.atoms.length v = otherEnd b0 i := by
            rw [← h1, hrhoanch]
            exact sigmaFill_rho hi ha0lt ha0ne
          have hsu : sigmaFill i m.atoms.length u = i := by
            rw [← h2, hklen]
            exact sigmaFill_last hi
          refine ⟨b0, hb0mem, ?_, hord⟩
          by_cases hc : (b0.a == i) = true
          · have hbaeq := beq_iff_eq.mp hc
            refine Or.inl ⟨by rw [hsu, hbaeq], ?_⟩
            rw [hsv]
            unfold otherEnd
            rw [if_pos hc]
          · rcases Bool.or_eq_true _ _ |>.mp hb0inc with hc2 | hc2
            · exact absurd hc2 hc
            · have hbbeq := beq_iff_eq.mp hc2
              refine Or.inr ⟨?_, by rw [hsu, hbbeq]⟩
              rw [hsv]
              unfold otherEnd
              rw [if_neg hc]
    · rintro ⟨b, hbmem, hmatch, horder⟩
      by_cases hun : u = m.atoms.length - 1
      · by_cases hvn : v = m.atoms.length - 1
        · -- both endpoints cannot be the removed atom
          exfalso
          subst hun
          subst hvn
          rw [sigmaFill_last hi] at hmatch
          obtain ⟨-, -, hbne⟩ := hwf b hbmem
          rcases hmatch with ⟨h1, h2⟩ | ⟨h1, h2⟩ <;> exact hbne (by omega)
        · -- u is the fresh hydrogen: the matching bond is the removed one
          subst hun
          have hsu : sigmaFill i m.atoms.length (m.atoms.length - 1) = i :=
            sigmaFill_last hi
          have hvmid : v < m.atoms.length - 1 := by omega
          have hsvne : sigmaFill i m.atoms.length v ≠ i := sigmaFill_ne_i hi hvmid
          have hsvlt : sigmaFill i m.atoms.length v < m.atoms.length :=
            sigmaFill_lt_mid hi hvmid
          have hbb0 : b = b0 := by
            have hbinc : b ∈ incidentBonds m i := by
              apply List.mem_filter.mpr
              refine ⟨hbmem, ?_⟩
              rcases hmatch with ⟨h1, h2⟩ | ⟨h1, h2⟩
              · rw [hsu] at h1
                simp [h1]
              · rw [hsu] at h2
                simp [h2]
            rw [hinc] at hbinc
            simpa using hbinc
          rw [hbb0] at hmatch horder
          have ha0v : otherEnd b0 i = sigmaFill i m.atoms.length v := by
            rcases hmatch with ⟨h1, h2⟩ | ⟨h1, h2⟩
            · rw [hsu] at h1
              unfold otherEnd
              rw [if_pos (beq_iff_eq.mpr h1)]
              exact h2
            · rw [hsu] at h2
              unfold otherEnd
              have hc : (b0.a == i) = false := by
                rw [beq_eq_false_iff_ne, h1]
                exact hsvne
              rw [hc]
              exact h1
          refine ⟨⟨newIndex r.kept r.anchor, r.kept.length, 1⟩, by simp, Or.inr ⟨?_, ?_⟩,
            by rw [← horder, hord]⟩
          · show newIndex r.kept r.anchor = v
            rw [hanchor, hnewIdx _ ha0lt ha0ne, ha0v]
            exact rho_sigmaFill hi hvmid
          · rw [hklen]
      · by_cases hvn : v = m.atoms.length - 1
        · -- v is the fresh hydrogen (mirror case)
          subst hvn
          have hsv : sigmaFill i m.atoms.length (m.atoms.length - 1) = i :=
            sigmaFill_last hi
          have humid : u < m.atoms.length - 1 := by omega
          have hsune : sigmaFill i m.atoms.length u ≠ i := sigmaFill_ne_i hi humid
          have hsult : sigmaFill i m.atoms.length u < m.atoms.length :=
            sigmaFill_lt_mid hi humid
          have hbb0 : b = b0 := by
            have hbinc : b ∈ incidentBonds m i := by
              apply List.mem_filter.mpr
              refine ⟨hbmem, ?_⟩
              rcases hmatch with ⟨h1, h2⟩ | ⟨h1, h2⟩
              · rw [hsv] at h2
                simp [h2]
              · rw [hsv] at h1
                simp [h1]
            rw [hinc] at hbinc
            simpa using hbinc
          rw [hbb0] at hmatch horder
          have ha0u : otherEnd b0 i = sigmaFill i m.atoms.length u := by
            rcases hmatch with ⟨h1, h2⟩ | ⟨h1, h2⟩
            · rw [hsv] at h2
              unfold otherEnd
              have hc : (b0.a == i) = false := by
                rw [beq_eq_false_iff_ne, h1]
                exact hsune
              rw [hc]
              exact h1
            · rw [hsv] at h1
              unfold otherEnd
              rw [if_pos (beq_iff_eq.mpr h1)]
              exact h2
          refine ⟨⟨newIndex r.kept r.anchor, r.kept.length, 1⟩, by simp, Or.inl ⟨?_, ?_⟩,
            by rw [← horder, hord]⟩
          · show newIndex r.kept r.anchor = u
            rw [hanchor, hnewIdx _ ha0lt ha0ne, ha0u]
            exact rho_sigmaFill hi humid
          · rw [hklen]
        · -- an internal bond away from the removed atom
          have humid : u < m.atoms.length - 1 := by omega
          have hvmid : v < m.atoms.length - 1 := by omega
          obtain ⟨hban, hbbn, hbne⟩ := hwf b hbmem
          have hbamem : b.a ∈ r.kept := by
            apply (hmemkc b.a).mpr
            refine ⟨hban, ?_⟩
            rcases hmatch with ⟨h1, h2⟩ | ⟨h1, h2⟩
            · rw [h1]; exact sigmaFill_ne_i hi humid
            · rw [h1]; exact sigmaFill_ne_i hi hvmid
          have hbbmem : b.b ∈ r.kept := by
            apply (hmemkc b.b).mpr
            refine ⟨hbbn, ?_⟩
            rcases hmatch with ⟨h1, h2⟩ | ⟨h1, h2⟩
            · rw [h2]; exact sigmaFill_ne_i hi hvmid
            · rw [h2]; exact sigmaFill_ne_i hi humid
          have hbfmem : b ∈ m.bonds.filter
              (fun b => r.kept.contains b.a && r.kept.contains b.b) := by
            apply List.mem_filter.mpr
            refine ⟨hbmem, ?_⟩
            rw [Bool.and_eq_true]
            constructor <;> simp only [List.contains, List.elem_iff]
            · exact hbamem
            · exact hbbmem
          refine ⟨⟨newIndex r.kept b.a, newIndex r.kept b.b, b.order⟩,
            List.mem_append_left _ (List.mem_map.mpr ⟨b, hbfmem, rfl⟩), ?_, horder⟩
          rcases hmatch with ⟨h1, h2⟩ | ⟨h1, h2⟩
          · refine Or.inl ⟨?_, ?_⟩
            · show newIndex r.kept b.a = u
              rw [hnewIdx _ hban ((hmemkc b.a).mp hbamem).2, h1]
              exact rho_sigmaFill hi humid
            · show newIndex r.kept b.b = v
              rw [hnewIdx _ hbbn ((hmemkc b.b).mp hbbmem).2, h2]
              exact rho_sigmaFill hi hvmid
          · refine Or.inr ⟨?_, ?_⟩
            · show newIndex r.kept b.a = v
              rw [hnewIdx _ hban ((hmemkc b.a).mp hbamem).2, h1]
              exact rho_sigmaFill hi hvmid
            · show newIndex r.kept b.b = u
              rw [hnewIdx _ hbbn ((hmemkc b.b).mp hbbmem).2, h2]
              exact rho_sigmaFill hi humid

theorem c7_null_fragment_round_trip_witness :
    buildOne molWater nullFragment (some 2) none = .ok molWater ∧
    Molecule.iso molWater molWater :=
  ⟨by decide,
   @c7_null_fragment_round_trip molWater molWater 2 ⟨0, 2, 1⟩ (by decide) (by decide)
     (by decide) (by decide) (by decide) (by decide) (by decide)⟩
